import Mathlib

/-!
Verification of the grid/match logic of `src/appengine/pattern/js/pattern.js`
(Blockly Games: Pattern).

The grid `Pattern.rowArray` is modelled as a `List (List Char)` (each row string
as its list of characters).  JS strings are immutable; the source splits rows
into arrays, mutates them and rejoins, which corresponds to building new lists.
`Math.random()`-driven character generation is modelled by threading the value
`Math.floor(Math.random() * POSSIBLE_ASCII_CHARACTERS.length)` — always a valid
index, since `Math.random() < 1` — as an explicit `Fin` parameter (one stream of
draws per cell, indexed by the cell's position; the draws are i.i.d., so the
assignment of fresh draws to cells is equivalent to the source's sequential
calls).  The DOM-only functions (`generateCharDisplay`'s element creation,
`highlightMatches`, `shiftCharacters`, `removeHighlighting`) have no effect on
`rowArray` except `generateCharDisplay`'s filling of empty rows, which is
modelled as `populate`.  The external JS `RegExp` engine is modelled by an
abstract matcher `FindFun` with `exec`/`lastIndex` semantics: given the row and
a start position it returns the next match's index and length, or `none`.
-/

set_option autoImplicit false

namespace Pattern

/-- `Pattern.CHAR_PER_ROW = 10` (pattern.js line 41). -/
def CHAR_PER_ROW : Nat := 10

/-- `Pattern.NUM_ROWS = 10` (pattern.js line 46). -/
def NUM_ROWS : Nat := 10

/-- `Pattern.REMOVED_CHAR_SYMBOL = ' '` (ASCII 32), pattern.js line 51. -/
def REMOVED_CHAR_SYMBOL : Char := ' '

/-- `Pattern.minChar = 65` (pattern.js line 56). -/
def minChar : Nat := 65

/-- `Pattern.maxChar = 90` (pattern.js line 61). -/
def maxChar : Nat := 90

/-- `Pattern.POSSIBLE_ASCII_CHARACTERS` (pattern.js lines 103-105): built by the
`else` branch of `createCharacterString` (the string is still empty at that
point), i.e. the loop `for (var c = min; c < max; c++)` pushing
`String.fromCharCode(c)` for `c = 65 .. 89` (`c < max` is strict, so `max` is
an exclusive bound, per the function's own doc comment). -/
def POSSIBLE_ASCII_CHARACTERS : List Char :=
  (List.range' minChar (maxChar - minChar)).map Char.ofNat

/-- `Pattern.generateCharacter` (pattern.js lines 113-117):
`POSSIBLE_ASCII_CHARACTERS.charAt(Math.floor(Math.random() * length))`.
The random draw `Math.floor(Math.random() * length)` is always `< length`
and is passed explicitly as a `Fin`. -/
def generateCharacter (k : Fin POSSIBLE_ASCII_CHARACTERS.length) : Char :=
  POSSIBLE_ASCII_CHARACTERS.get k

/-- One stream of random draws (values of
`Math.floor(Math.random() * POSSIBLE_ASCII_CHARACTERS.length)`). -/
def RndRow : Type := Nat → Fin POSSIBLE_ASCII_CHARACTERS.length

/-- A per-cell family of random draws. -/
def RndGrid : Type := Nat → Nat → Fin POSSIBLE_ASCII_CHARACTERS.length

/-- `Pattern.createCharacterString(length)` as called at runtime
(pattern.js lines 82-97, `if` branch: `POSSIBLE_ASCII_CHARACTERS` is non-empty
by then): pushes `length` calls of `generateCharacter`. -/
def createCharacterString (rnd : RndRow) (len : Nat) : List Char :=
  (List.range len).map (fun c => generateCharacter (rnd c))

/-- The `rowArray`-mutating part of `Pattern.generateCharDisplay`
(pattern.js lines 131-136): for each `row < NUM_ROWS`, if
`Pattern.rowArray[row]` is falsy (missing row or empty string) it is filled
with `createCharacterString(CHAR_PER_ROW)`; rows beyond `NUM_ROWS` are kept. -/
def populate (rnd : RndGrid) (g : List (List Char)) : List (List Char) :=
  (List.range (max NUM_ROWS g.length)).map (fun r =>
    if r < NUM_ROWS ∧ g.getD r [] = [] then createCharacterString (rnd r) CHAR_PER_ROW
    else g.getD r [])

/-- `Pattern.removeCharacters(matchIndexes)` (pattern.js lines 341-349): for
each location `(row, col)` in order, reads `match = rowArray[row][col]` and
does `rowArray[row] = rowArray[row].replace(match, REMOVED_CHAR_SYMBOL)`.
JS `String.prototype.replace` with a string argument replaces the FIRST
occurrence of `match`, which is what `List.replace` does. -/
def removeCharacters : List (Nat × Nat) → List (List Char) → List (List Char)
  | [], g => g
  | (r, c) :: rest, g =>
    removeCharacters rest
      (g.set r ((g.getD r []).replace ((g.getD r []).getD c ' ') REMOVED_CHAR_SYMBOL))

/-- One column step of `Pattern.arrayShift`'s inner `col` loop
(pattern.js lines 399-405) on a pair of rows: `t` is `tempArrayTo` (the lower
row, index `row`), `f` is `tempArrayFrom` (the row above, index `row - 1`).
For each column, if `t[col] == REMOVED_CHAR_SYMBOL` then
`t[col] := f[col]; f[col] := REMOVED_CHAR_SYMBOL`.  Rows of a well-formed grid
have equal length (`CHAR_PER_ROW`). -/
def shiftRowPair : List Char → List Char → List Char × List Char
  | t :: ts, f :: fs =>
    let p := shiftRowPair ts fs
    if t = REMOVED_CHAR_SYMBOL then (f :: p.1, REMOVED_CHAR_SYMBOL :: p.2)
    else (t :: p.1, f :: p.2)
  | ts, fs => (ts, fs)

/-- Combining step of one `row` iteration of `Pattern.arrayShift`
(pattern.js lines 391-408): the grid below the current row has already been
processed (the loop runs `row = NUM_ROWS - 1` down to `1`, so lower pairs are
processed first); the current row `r0` (`rowArray[row - 1]`) is combined with
the already-updated row below it. -/
def shiftPassStep (r0 : List Char) : List (List Char) → List (List Char)
  | [] => [r0]
  | r1 :: rest =>
    (shiftRowPair r1 r0).2 :: (shiftRowPair r1 r0).1 :: rest

/-- One full inner sweep of `Pattern.arrayShift` (pattern.js lines 391-408):
`for (row = NUM_ROWS - 1; row > 0; row--)` swapping removed characters upward,
bottom pair first.  Structural recursion over the list of rows coincides with
the indexed loop on a grid of exactly `NUM_ROWS` rows. -/
def shiftPass : List (List Char) → List (List Char)
  | [] => []
  | r0 :: rest => shiftPassStep r0 (shiftPass rest)

/-- `Pattern.arrayShift` (pattern.js lines 388-410): the outer loop
`for (i = NUM_ROWS; i > 0; i--)` runs the sweep `NUM_ROWS` times. -/
def arrayShift (g : List (List Char)) : List (List Char) :=
  shiftPass^[NUM_ROWS] g

/-- The inner `col` loop of `Pattern.replaceCharacters`
(pattern.js lines 428-433): every `REMOVED_CHAR_SYMBOL` cell is replaced by a
freshly generated character; `c` is the column index of the head. -/
def replaceRow (rnd : RndRow) : Nat → List Char → List Char
  | _, [] => []
  | c, ch :: rest =>
    (if ch = REMOVED_CHAR_SYMBOL then generateCharacter (rnd c) else ch) ::
      replaceRow rnd (c + 1) rest

/-- `Pattern.replaceCharacters` (pattern.js lines 426-436): for each
`row < NUM_ROWS`, split the row, replace removed characters, rejoin. -/
def replaceCharacters (rnd : RndGrid) (g : List (List Char)) : List (List Char) :=
  (List.range (max NUM_ROWS g.length)).map (fun r =>
    if r < NUM_ROWS then replaceRow (rnd r) 0 (g.getD r []) else g.getD r [])

/-- Abstract model of a compiled `RegExp` in global (`'g'`) mode, as used by
`Pattern.getMatches`: given the row string and the current `lastIndex`, `exec`
either returns the next match — its index and its length — or `null`. -/
def FindFun : Type := List Char → Nat → Option (Nat × Nat)

/-- A matcher behaving like a real `RegExp.exec`: a returned match starts at or
after the scan position and lies inside the string; its length is positive
(the pattern never matches the empty string — the precondition of C10). -/
def ValidFind (find : FindFun) : Prop :=
  ∀ s pos idx len, find s pos = some (idx, len) →
    pos ≤ idx ∧ idx + len ≤ s.length ∧ 1 ≤ len

/-- The `while (match = userRegex.exec(...))` loop of `Pattern.getMatches`
(pattern.js lines 311-317) for one row, with explicit `lastIndex` (`pos`) and
fuel.  For each match it pushes one column per character position spanned
(`match.index + m` for `m < match[0].length`), then resumes at
`match.index + match[0].length` (JS sets `lastIndex` there; a zero-length
match does not advance it, hence the fuel — `none` means the fuel ran out,
i.e. the loop as written would still be running). -/
def execScan (find : FindFun) (s : List Char) : Nat → Nat → Option (List Nat)
  | 0, _ => none
  | fuel + 1, pos =>
    match find s pos with
    | none => some []
    | some (idx, len) =>
      (execScan find s fuel (idx + len)).map
        (fun rest => (List.range len).map (fun m => idx + m) ++ rest)

/-- Matched columns of one row.  `s.length + 1` fuel is enough for any matcher
with positive-length matches (proved below); `getD []` only discharges the
out-of-fuel case. -/
def rowMatches (find : FindFun) (s : List Char) : List Nat :=
  (execScan find s (s.length + 1) 0).getD []

/-- Row loop of `Pattern.getMatches` (pattern.js lines 309-318): rows in index
order, each row scanned independently (a `null` `exec` result resets
`lastIndex` to 0, so every row starts at position 0). -/
def getMatchesAux (find : FindFun) : Nat → List (List Char) → List (Nat × Nat)
  | _, [] => []
  | r, row :: rest =>
    (rowMatches find row).map (fun c => (r, c)) ++ getMatchesAux find (r + 1) rest

/-- `Pattern.getMatches` (pattern.js lines 303-320), with the compiled user
regex abstracted as `find`. -/
def getMatches (find : FindFun) (g : List (List Char)) : List (Nat × Nat) :=
  getMatchesAux find 0 g

/-- The game state touched by a run: `Pattern.rowArray` and the `disabled`
flag of the run button (`true` while a cycle is in progress; `Pattern.reset`
sets it back to `false`). -/
structure GameState where
  rowArray : List (List Char)
  runDisabled : Bool
deriving DecidableEq

/-- `Pattern.execute` (pattern.js lines 263-288), with the two `setTimeout`
continuations inlined sequentially.  `new RegExp(userRegexString, 'g')` in
`getMatches` throws on an invalid pattern; the exception propagates uncaught
out of `execute` (there is no try/catch), modelled as `(unchanged state, some
error)`.  Otherwise: if there are matches, `removeCharacters`, then
`generateCharDisplay` (whose only `rowArray` effect is `populate`), then
`arrayShift`, then `replaceCharacters`, then `generateCharDisplay` again and
`reset` (which re-enables the run button); if there are none, only `reset`. -/
def execute (compileResult : Except String FindFun)
    (rndPop rndFill rndPop2 : RndGrid) (st : GameState) :
    GameState × Option String :=
  match compileResult with
  | .error e => (st, some e)
  | .ok find =>
    let ms := getMatches find st.rowArray
    if ms = [] then ({ st with runDisabled := false }, none)
    else
      let g1 := removeCharacters ms st.rowArray
      let g2 := populate rndPop g1
      let g3 := arrayShift g2
      let g4 := replaceCharacters rndFill g3
      let g5 := populate rndPop2 g4
      ({ rowArray := g5, runDisabled := false }, none)

/-- `Pattern.runButtonClick` (pattern.js lines 253-258): disables the run
button, then calls `execute`. -/
def runButtonClick (compileResult : Except String FindFun)
    (rndPop rndFill rndPop2 : RndGrid) (st : GameState) :
    GameState × Option String :=
  execute compileResult rndPop rndFill rndPop2 { st with runDisabled := true }

/-- Column `c` of a grid, read top to bottom (missing cells read as the
sentinel, which never happens on a well-formed grid). -/
def col (c : Nat) (g : List (List Char)) : List Char :=
  g.map (fun row => row.getD c ' ')

/-- Modelled matcher for the single-character pattern `"A"` (more generally a
single literal character `ch`): the first index `≥ pos` holding `ch`, match
length 1.  The regex engine itself is external to the repository
(JS `RegExp`). -/
def charFindIdx (ch : Char) : List Char → Nat → Option Nat
  | [], _ => none
  | a :: rest, 0 =>
    if a = ch then some 0 else (charFindIdx ch rest 0).map (fun j => j + 1)
  | _ :: rest, pos + 1 => (charFindIdx ch rest pos).map (fun j => j + 1)

/-- The `FindFun` of the single-literal pattern. -/
def charFind (ch : Char) : FindFun :=
  fun s pos => (charFindIdx ch s pos).map (fun j => (j, 1))

/-- Modelled matcher for the end-anchored pattern `/B$/`: matches the last
character when it is `'B'` and the scan position has not passed it. -/
def bDollarFind : FindFun := fun s pos =>
  if pos + 1 ≤ s.length ∧ s.getD (s.length - 1) ' ' = 'B' then
    some (s.length - 1, 1)
  else none

/-- A matcher that never matches (e.g. a literal absent from the grid). -/
def noneFind : FindFun := fun _ _ => none

/-- A (deterministic) stream of random draws, for concrete evaluations. -/
def rnd0 : RndGrid := fun _ _ => ⟨0, by decide⟩

/-- A single-row stream of draws, for concrete evaluations. -/
def rndRow0 : RndRow := fun _ => ⟨0, by decide⟩

/-- The action of one `arrayShift` sweep on a single column (proved below to
commute with `shiftPass` through `col`): `colPass` processes the column bottom
pair first; `colPassStep` combines the cell of the current row with the
already-processed part of the column below it. -/
def colPassStep (a : Char) : List Char → List Char
  | [] => [a]
  | b :: rest => if b = ' ' then ' ' :: a :: rest else a :: b :: rest

/-- One sweep of `arrayShift` restricted to one column. -/
def colPass : List Char → List Char
  | [] => []
  | a :: l => colPassStep a (colPass l)

/-- Remove the last (bottom-most) sentinel of a column; one `colPass` sweep
moves exactly that sentinel to the top (proved below). -/
def eraseLastS (l : List Char) : List Char := (l.reverse.erase ' ').reverse

/-- A concrete well-formed grid containing sentinel cells, for witnesses. -/
def gridA : List (List Char) :=
  ["AB DEFGHIJ", " BCDEFGH J", "ABCDEFGHIJ", "A   EFGHIJ", "ABCDE GHIJ",
   "ABCDEFGHIJ", "  CDEFGHIJ", "ABCD FGHIJ", "ABCDEFGHI ", "ABCDEFGHIJ"].map
    String.toList

/-- A concrete well-formed sentinel-free grid, for witnesses. -/
def gridB : List (List Char) := List.replicate 10 "ABCDEFGHIJ".toList

/-- A concrete idle game state, for witnesses. -/
def gState0 : GameState := { rowArray := gridB, runDisabled := false }

/-! ## Theorems -/

/-! ### Collapse (`arrayShift`): one sweep of a column moves its last sentinel
to the top -/

theorem eraseLastS_cons_of_mem (a : Char) {l : List Char} (h : ' ' ∈ l) :
    eraseLastS (a :: l) = a :: eraseLastS l := by
  unfold eraseLastS
  rw [List.reverse_cons, List.erase_append_left _ (List.mem_reverse.mpr h),
    List.reverse_append]
  rfl

theorem eraseLastS_cons_self_of_not_mem {l : List Char} (h : ' ' ∉ l) :
    eraseLastS (' ' :: l) = l := by
  unfold eraseLastS
  rw [List.reverse_cons, List.erase_append_right _ (by simpa using h)]
  simp

theorem eraseLastS_append_of_mem (y : List Char) {x : List Char} (h : ' ' ∈ x) :
    eraseLastS (y ++ x) = y ++ eraseLastS x := by
  unfold eraseLastS
  rw [List.reverse_append, List.erase_append_left _ (List.mem_reverse.mpr h),
    List.reverse_append, List.reverse_reverse]

theorem eraseLastS_replicate_append {f : List Char} (h : ' ' ∉ f) (j : Nat) :
    eraseLastS (List.replicate (j + 1) ' ' ++ f) = List.replicate j ' ' ++ f := by
  unfold eraseLastS
  rw [List.reverse_append, List.reverse_replicate,
    List.erase_append_right _ (by simpa using h), List.replicate_succ,
    List.erase_cons_head, List.reverse_append, List.reverse_replicate,
    List.reverse_reverse]

theorem count_eraseLastS (x : List Char) :
    (eraseLastS x).count ' ' = x.count ' ' - 1 := by
  unfold eraseLastS
  rw [List.count_reverse, List.count_erase_self, List.count_reverse]

theorem filter_erase_sentinel :
    ∀ l : List Char, (l.erase ' ').filter (fun x => x ≠ ' ') =
      l.filter (fun x => x ≠ ' ')
  | [] => rfl
  | a :: l => by
    by_cases ha : a = ' '
    · subst ha
      rw [List.erase_cons_head]
      simp
    · rw [List.erase_cons_tail (by simpa using ha), List.filter_cons,
        List.filter_cons, filter_erase_sentinel l]

theorem filter_eraseLastS (x : List Char) :
    (eraseLastS x).filter (fun c => c ≠ ' ') = x.filter (fun c => c ≠ ' ') := by
  unfold eraseLastS
  rw [List.filter_reverse, filter_erase_sentinel, List.filter_reverse,
    List.reverse_reverse]

theorem colPass_eq (l : List Char) :
    colPass l = if ' ' ∈ l then ' ' :: eraseLastS l else l := by
  induction l with
  | nil => simp [colPass]
  | cons a l ih =>
    show colPassStep a (colPass l) = _
    rw [ih]
    by_cases hl : ' ' ∈ l
    · rw [if_pos hl, if_pos (List.mem_cons_of_mem a hl),
        eraseLastS_cons_of_mem a hl]
      simp [colPassStep]
    · rw [if_neg hl]
      cases l with
      | nil =>
        by_cases ha : a = ' '
        · subst ha
          simp [colPassStep, eraseLastS]
        · have hmem : ' ' ∉ [a] := fun hmem =>
            ha (List.mem_singleton.mp hmem).symm
          rw [if_neg hmem]
          simp [colPassStep]
      | cons b rest =>
        have hb : ¬ b = ' ' := fun hbS => hl (by simp [hbS])
        by_cases ha : a = ' '
        · subst ha
          rw [if_pos (List.mem_cons_self ' ' _),
            eraseLastS_cons_self_of_not_mem hl]
          simp [colPassStep, hb]
        · have hmem : ' ' ∉ a :: b :: rest := by
            intro hmem
            rcases List.mem_cons.mp hmem with hmm | hmm
            · exact ha hmm.symm
            · exact hl hmm
          rw [if_neg hmem]
          simp [colPassStep, hb]

theorem colPass_iter_partition :
    ∀ (j m : Nat) (x : List Char), x.count ' ' = j →
      colPass^[j] (List.replicate m ' ' ++ x) =
        List.replicate (m + j) ' ' ++ x.filter (fun c => c ≠ ' ')
  | 0, m, x, hx => by
    have hmem : ' ' ∉ x := List.count_eq_zero.mp hx
    have hall : ∀ a ∈ x, (fun c => decide (c ≠ ' ')) a = true := by
      intro a ha
      simp only [decide_eq_true_eq]
      intro hEq
      exact hmem (hEq ▸ ha)
    rw [Function.iterate_zero_apply, List.filter_eq_self.mpr hall, Nat.add_zero]
  | j + 1, m, x, hx => by
    have hmem : ' ' ∈ x := by
      by_contra hmem
      rw [List.count_eq_zero.mpr hmem] at hx
      exact Nat.noConfusion hx
    rw [Function.iterate_succ_apply, colPass_eq,
      if_pos (List.mem_append_right _ hmem), eraseLastS_append_of_mem _ hmem]
    have hcount : (eraseLastS x).count ' ' = j := by
      rw [count_eraseLastS x, hx]
      omega
    have hstep :
        (' ' :: (List.replicate m ' ' ++ eraseLastS x)) =
          List.replicate (m + 1) ' ' ++ eraseLastS x := by
      simp [List.replicate_succ]
    rw [hstep, colPass_iter_partition j (m + 1) (eraseLastS x) hcount,
      filter_eraseLastS]
    have : m + 1 + j = m + (j + 1) := by omega
    rw [this]

theorem colPass_partition_fixed {f : List Char} (h : ' ' ∉ f) :
    ∀ j : Nat, colPass (List.replicate j ' ' ++ f) = List.replicate j ' ' ++ f
  | 0 => by
    rw [List.replicate, List.nil_append, colPass_eq, if_neg h]
  | j + 1 => by
    rw [colPass_eq, if_pos (List.mem_append_left _ (by simp [List.replicate_succ])),
      eraseLastS_replicate_append h j]
    simp [List.replicate_succ]

theorem colPass_iter_partition_fixed {f : List Char} (h : ' ' ∉ f) (j : Nat) :
    ∀ d : Nat, colPass^[d] (List.replicate j ' ' ++ f) = List.replicate j ' ' ++ f
  | 0 => rfl
  | d + 1 => by
    rw [Function.iterate_succ_apply, colPass_partition_fixed h j,
      colPass_iter_partition_fixed h j d]

theorem colPass_iter_of_count_le {l : List Char} {k : Nat} (h : l.count ' ' ≤ k) :
    colPass^[k] l =
      List.replicate (l.count ' ') ' ' ++ l.filter (fun c => c ≠ ' ') := by
  have hsplit : k = (k - l.count ' ') + l.count ' ' := by omega
  have h0 : colPass^[l.count ' '] l =
      List.replicate (l.count ' ') ' ' ++ l.filter (fun c => c ≠ ' ') := by
    have hpart := colPass_iter_partition (l.count ' ') 0 l rfl
    simpa using hpart
  rw [hsplit, Function.iterate_add_apply, h0]
  exact colPass_iter_partition_fixed
    (fun hmem => by simpa using (List.mem_filter.mp hmem).2) _ _

/-! ### `shiftPass` acts column by column as `colPass` -/

theorem shiftRowPair_length :
    ∀ t f : List Char,
      (shiftRowPair t f).1.length = t.length ∧
      (shiftRowPair t f).2.length = f.length
  | [], f => by simp [shiftRowPair]
  | t :: ts, [] => by simp [shiftRowPair]
  | t :: ts, f :: fs => by
    have ih := shiftRowPair_length ts fs
    by_cases ht : t = REMOVED_CHAR_SYMBOL
    · simp [shiftRowPair, ht, ih.1, ih.2]
    · simp [shiftRowPair, ht, ih.1, ih.2]

theorem shiftRowPair_getD :
    ∀ (t f : List Char), t.length = f.length → ∀ c : Nat,
      (shiftRowPair t f).1.getD c ' ' =
        (if t.getD c ' ' = ' ' then f.getD c ' ' else t.getD c ' ') ∧
      (shiftRowPair t f).2.getD c ' ' =
        (if t.getD c ' ' = ' ' then ' ' else f.getD c ' ')
  | [], [], _, c => by simp [shiftRowPair]
  | [], f :: fs, hlen, c => by simp at hlen
  | t :: ts, [], hlen, c => by simp at hlen
  | t :: ts, f :: fs, hlen, c => by
    have hlen' : ts.length = fs.length := by simpa using hlen
    cases c with
    | zero =>
      by_cases ht : t = ' '
      · simp [shiftRowPair, REMOVED_CHAR_SYMBOL, ht]
      · simp [shiftRowPair, REMOVED_CHAR_SYMBOL, ht]
    | succ c =>
      have ih := shiftRowPair_getD ts fs hlen' c
      by_cases ht : t = ' '
      · simpa [shiftRowPair, REMOVED_CHAR_SYMBOL, ht] using ih
      · simpa [shiftRowPair, REMOVED_CHAR_SYMBOL, ht] using ih

theorem shiftPass_length : ∀ g : List (List Char), (shiftPass g).length = g.length
  | [] => rfl
  | r0 :: rest => by
    have ih := shiftPass_length rest
    show (shiftPassStep r0 (shiftPass rest)).length = rest.length + 1
    cases hrest : shiftPass rest with
    | nil =>
      rw [hrest] at ih
      simp [shiftPassStep, ← ih]
    | cons r1 rest' =>
      rw [hrest] at ih
      simp only [shiftPassStep, List.length_cons] at ih ⊢
      omega

theorem shiftPass_rows_length {L : Nat} :
    ∀ g : List (List Char), (∀ r ∈ g, r.length = L) →
      ∀ r ∈ shiftPass g, r.length = L
  | [], _, r, hr => absurd hr (List.not_mem_nil r)
  | r0 :: rest, hg, r, hr => by
    have ih := shiftPass_rows_length rest (fun x hx => hg x (List.mem_cons_of_mem r0 hx))
    have h0 : r0.length = L := hg r0 (List.mem_cons_self r0 rest)
    rw [show shiftPass (r0 :: rest) = shiftPassStep r0 (shiftPass rest) from rfl] at hr
    cases hrest : shiftPass rest with
    | nil =>
      rw [hrest] at hr
      simp only [shiftPassStep] at hr
      rw [List.mem_singleton.mp hr]
      exact h0
    | cons r1 rest' =>
      rw [hrest] at hr
      have h1 : r1.length = L := ih r1 (hrest ▸ List.mem_cons_self r1 rest')
      simp only [shiftPassStep] at hr
      rcases List.mem_cons.mp hr with hEq | hr2
      · rw [hEq, (shiftRowPair_length r1 r0).2]
        exact h0
      · rcases List.mem_cons.mp hr2 with hEq | hr3
        · rw [hEq, (shiftRowPair_length r1 r0).1]
          exact h1
        · exact ih r (hrest ▸ List.mem_cons_of_mem r1 hr3)

theorem col_shiftPass {L : Nat} (c : Nat) :
    ∀ g : List (List Char), (∀ r ∈ g, r.length = L) →
      col c (shiftPass g) = colPass (col c g)
  | [], _ => rfl
  | r0 :: rest, hg => by
    have ih := col_shiftPass c rest (fun x hx => hg x (List.mem_cons_of_mem r0 hx))
    have h0 : r0.length = L := hg r0 (List.mem_cons_self r0 rest)
    show col c (shiftPassStep r0 (shiftPass rest)) = colPassStep (r0.getD c ' ') (colPass (col c rest))
    rw [← ih]
    cases hrest : shiftPass rest with
    | nil =>
      have : rest = [] := List.length_eq_zero.mp (by
        have := shiftPass_length rest
        rw [hrest] at this
        simpa using this.symm)
      subst this
      simp [shiftPassStep, col, colPassStep]
    | cons r1 rest' =>
      have h1 : r1.length = L :=
        shiftPass_rows_length rest (fun x hx => hg x (List.mem_cons_of_mem r0 hx))
          r1 (hrest ▸ List.mem_cons_self r1 rest')
      have hpt := shiftRowPair_getD r1 r0 (h1.trans h0.symm) c
      show col c ((shiftRowPair r1 r0).2 :: (shiftRowPair r1 r0).1 :: rest') = _
      show (shiftRowPair r1 r0).2.getD c ' ' :: (shiftRowPair r1 r0).1.getD c ' ' ::
        col c rest' = _
      rw [hpt.1, hpt.2]
      show _ = colPassStep (r0.getD c ' ') (r1.getD c ' ' :: col c rest')
      simp only [colPassStep]
      by_cases hb : r1.getD c ' ' = ' '
      · rw [if_pos hb, if_pos hb, if_pos hb]
      · rw [if_neg hb, if_neg hb, if_neg hb]

theorem col_shiftPass_iter {L : Nat} (c : Nat) :
    ∀ (k : Nat) (g : List (List Char)), (∀ r ∈ g, r.length = L) →
      col c (shiftPass^[k] g) = colPass^[k] (col c g)
  | 0, g, _ => rfl
  | k + 1, g, hg => by
    rw [Function.iterate_succ_apply, Function.iterate_succ_apply,
      col_shiftPass_iter c k (shiftPass g) (shiftPass_rows_length g hg),
      col_shiftPass c g hg]

/-- Shared closed form for collapse: after `arrayShift`, every column is its
sentinels (as many as it had) on top of its non-sentinel cells in order. -/
theorem arrayShift_col_closed {g : List (List Char)}
    (hlen : g.length = NUM_ROWS) (hrows : ∀ r ∈ g, r.length = CHAR_PER_ROW)
    (c : Nat) :
    col c (arrayShift g) =
      List.replicate ((col c g).count ' ') ' ' ++
        (col c g).filter (fun x => x ≠ ' ') := by
  rw [arrayShift, col_shiftPass_iter c NUM_ROWS g hrows]
  apply colPass_iter_of_count_le
  calc (col c g).count ' ' ≤ (col c g).length := List.count_le_length ' ' _
    _ = g.length := List.length_map g _
    _ ≤ NUM_ROWS := le_of_eq hlen

/-- **C2.** For every well-formed grid (`NUM_ROWS` rows of `CHAR_PER_ROW`
characters), collapse — `arrayShift`'s `NUM_ROWS` bottom-to-top swap sweeps —
makes, in every column, all non-sentinel cells settle to the bottom of the
column preserving their relative vertical order, with all sentinel cells
ending above them (also with several sentinels stacked in one column): the
column after `arrayShift`, read top to bottom, is the column's sentinels
followed by its non-sentinel cells in order. -/
theorem c2_collapse_settles_columns (g : List (List Char))
    (hlen : g.length = NUM_ROWS) (hrows : ∀ r ∈ g, r.length = CHAR_PER_ROW)
    (c : Nat) (_hc : c < CHAR_PER_ROW) :
    col c (arrayShift g) =
      List.replicate ((col c g).count REMOVED_CHAR_SYMBOL) REMOVED_CHAR_SYMBOL ++
        (col c g).filter (fun x => x ≠ REMOVED_CHAR_SYMBOL) :=
  arrayShift_col_closed hlen hrows c

/-- Witness for C2 on a concrete grid (column 2 of `gridA` holds a sentinel). -/
theorem c2_collapse_settles_columns_witness :
    col 2 (arrayShift gridA) =
      List.replicate ((col 2 gridA).count REMOVED_CHAR_SYMBOL) REMOVED_CHAR_SYMBOL ++
        (col 2 gridA).filter (fun x => x ≠ REMOVED_CHAR_SYMBOL) :=
  c2_collapse_settles_columns gridA (by decide) (by decide) 2 (by decide)

/-- **C5.** Collapse is column-local: on a well-formed grid, for every column
`c` the multiset of non-sentinel characters of column `c` before `arrayShift`
equals the multiset after it (no character moves between columns). -/
theorem c5_collapse_column_local (g : List (List Char))
    (hlen : g.length = NUM_ROWS) (hrows : ∀ r ∈ g, r.length = CHAR_PER_ROW)
    (c : Nat) (_hc : c < CHAR_PER_ROW) :
    (((col c (arrayShift g)).filter (fun x => x ≠ REMOVED_CHAR_SYMBOL) :
        List Char) : Multiset Char) =
      (((col c g).filter (fun x => x ≠ REMOVED_CHAR_SYMBOL) : List Char) :
        Multiset Char) := by
  have hlist : (col c (arrayShift g)).filter (fun x => x ≠ ' ') =
      (col c g).filter (fun x => x ≠ ' ') := by
    rw [arrayShift_col_closed hlen hrows c, List.filter_append,
      List.filter_replicate_of_neg (by simp), List.nil_append,
      List.filter_filter]
    simp only [Bool.and_self]
  exact congrArg (fun l : List Char => (l : Multiset Char)) hlist

/-- Witness for C5 on a concrete grid (column 5 of `gridA` holds sentinels). -/
theorem c5_collapse_column_local_witness :
    (((col 5 (arrayShift gridA)).filter (fun x => x ≠ REMOVED_CHAR_SYMBOL) :
        List Char) : Multiset Char) =
      (((col 5 gridA).filter (fun x => x ≠ REMOVED_CHAR_SYMBOL) : List Char) :
        Multiset Char) :=
  c5_collapse_column_local gridA (by decide) (by decide) 5 (by decide)

/-! ### Dimensions and sentinel-freeness through remove / collapse / refill -/

theorem getD_mem_of_lt {g : List (List Char)} {r : Nat} (h : r < g.length) :
    g.getD r [] ∈ g := by
  rw [List.getD_eq_getElem?_getD, List.getElem?_eq_getElem h, Option.getD_some]
  exact List.getElem_mem h

theorem removeCharacters_length :
    ∀ (ms : List (Nat × Nat)) (g : List (List Char)),
      (removeCharacters ms g).length = g.length
  | [], _ => rfl
  | (r, c) :: rest, g => by
    show (removeCharacters rest _).length = g.length
    rw [removeCharacters_length rest, List.length_set]

theorem removeCharacters_rows_length :
    ∀ (ms : List (Nat × Nat)) (g : List (List Char)), g.length = NUM_ROWS →
      (∀ p ∈ ms, p.1 < NUM_ROWS) → (∀ r ∈ g, r.length = CHAR_PER_ROW) →
      ∀ r ∈ removeCharacters ms g, r.length = CHAR_PER_ROW
  | [], _, _, _, hg => hg
  | (r, c) :: rest, g, hlen, hms, hg => by
    show ∀ row ∈ removeCharacters rest
      (g.set r ((g.getD r []).replace ((g.getD r []).getD c ' ')
        REMOVED_CHAR_SYMBOL)), row.length = CHAR_PER_ROW
    refine removeCharacters_rows_length rest _ ?_ ?_ ?_
    · rw [List.length_set]
      exact hlen
    · exact fun p hp => hms p (List.mem_cons_of_mem _ hp)
    · intro row hrow
      rcases List.mem_or_eq_of_mem_set hrow with hmem | hEq
      · exact hg row hmem
      · rw [hEq, List.length_replace]
        have hr : r < g.length := by
          rw [hlen]
          exact hms (r, c) (List.mem_cons_self _ _)
        exact hg _ (getD_mem_of_lt hr)

theorem shiftPass_iter_length (k : Nat) :
    ∀ g : List (List Char), (shiftPass^[k] g).length = g.length := by
  induction k with
  | zero => intro g; rfl
  | succ k ih =>
    intro g
    rw [Function.iterate_succ_apply, ih, shiftPass_length]

theorem shiftPass_iter_rows_length (k : Nat) :
    ∀ g : List (List Char), (∀ r ∈ g, r.length = CHAR_PER_ROW) →
      ∀ r ∈ shiftPass^[k] g, r.length = CHAR_PER_ROW := by
  induction k with
  | zero => exact fun g hg => hg
  | succ k ih =>
    intro g hg
    rw [Function.iterate_succ_apply]
    exact ih (shiftPass g) (shiftPass_rows_length g hg)

theorem replaceRow_length (rnd : RndRow) :
    ∀ (c : Nat) (row : List Char), (replaceRow rnd c row).length = row.length
  | _, [] => rfl
  | c, ch :: rest => by
    show ((if ch = REMOVED_CHAR_SYMBOL then generateCharacter (rnd c) else ch) ::
      replaceRow rnd (c + 1) rest).length = rest.length + 1
    rw [List.length_cons, replaceRow_length rnd (c + 1) rest]

theorem generateCharacter_mem (k : Fin POSSIBLE_ASCII_CHARACTERS.length) :
    generateCharacter k ∈ POSSIBLE_ASCII_CHARACTERS :=
  List.get_mem POSSIBLE_ASCII_CHARACTERS k.1 k.2

theorem sentinel_not_mem_alphabet :
    REMOVED_CHAR_SYMBOL ∉ POSSIBLE_ASCII_CHARACTERS := by decide

theorem generateCharacter_ne_sentinel (k : Fin POSSIBLE_ASCII_CHARACTERS.length) :
    generateCharacter k ≠ REMOVED_CHAR_SYMBOL :=
  fun h => sentinel_not_mem_alphabet (h ▸ generateCharacter_mem k)

theorem replaceRow_no_sentinel (rnd : RndRow) :
    ∀ (c : Nat) (row : List Char) (ch : Char), ch ∈ replaceRow rnd c row →
      ch ≠ REMOVED_CHAR_SYMBOL
  | _, [], ch, h => absurd h (List.not_mem_nil ch)
  | c, x :: rest, ch, h => by
    simp only [replaceRow] at h
    rcases List.mem_cons.mp h with hEq | hmem
    · by_cases hx : x = REMOVED_CHAR_SYMBOL
      · rw [hEq, if_pos hx]
        exact generateCharacter_ne_sentinel _
      · rw [hEq, if_neg hx]
        exact hx
    · exact replaceRow_no_sentinel rnd (c + 1) rest ch hmem

theorem replaceCharacters_length (rnd : RndGrid) {g : List (List Char)}
    (hlen : g.length = NUM_ROWS) :
    (replaceCharacters rnd g).length = NUM_ROWS := by
  simp [replaceCharacters, hlen]

theorem replaceCharacters_rows (rnd : RndGrid) {g : List (List Char)}
    (hlen : g.length = NUM_ROWS) :
    ∀ row ∈ replaceCharacters rnd g,
      ∃ r, r < NUM_ROWS ∧ row = replaceRow (rnd r) 0 (g.getD r []) := by
  intro row hrow
  simp only [replaceCharacters, List.mem_map, List.mem_range] at hrow
  obtain ⟨r, hr, hEq⟩ := hrow
  rw [hlen, Nat.max_self] at hr
  refine ⟨r, hr, ?_⟩
  rw [← hEq, if_pos hr]

theorem replaceCharacters_rows_length (rnd : RndGrid) {g : List (List Char)}
    (hlen : g.length = NUM_ROWS) (hrows : ∀ r ∈ g, r.length = CHAR_PER_ROW) :
    ∀ row ∈ replaceCharacters rnd g, row.length = CHAR_PER_ROW := by
  intro row hrow
  obtain ⟨r, hr, hEq⟩ := replaceCharacters_rows rnd hlen row hrow
  rw [hEq, replaceRow_length]
  refine hrows _ (getD_mem_of_lt ?_)
  rw [hlen]
  exact hr

theorem replaceCharacters_no_sentinel (rnd : RndGrid) {g : List (List Char)}
    (hlen : g.length = NUM_ROWS) :
    ∀ row ∈ replaceCharacters rnd g, ∀ ch ∈ row, ch ≠ REMOVED_CHAR_SYMBOL := by
  intro row hrow ch hch
  obtain ⟨r, _, hEq⟩ := replaceCharacters_rows rnd hlen row hrow
  rw [hEq] at hch
  exact replaceRow_no_sentinel _ _ _ _ hch

/-- **C4.** For every in-bounds match set `M` and well-formed grid `G`,
`removeCharacters M`, then `arrayShift`, then `replaceCharacters` yields a
grid with no sentinel cells whose dimensions are still exactly `NUM_ROWS`
rows of `CHAR_PER_ROW` characters. -/
theorem c4_remove_collapse_refill (rnd : RndGrid) (ms : List (Nat × Nat))
    (g : List (List Char)) (hlen : g.length = NUM_ROWS)
    (hrows : ∀ r ∈ g, r.length = CHAR_PER_ROW)
    (hms : ∀ p ∈ ms, p.1 < NUM_ROWS ∧ p.2 < CHAR_PER_ROW) :
    (replaceCharacters rnd (arrayShift (removeCharacters ms g))).length =
      NUM_ROWS ∧
    (∀ row ∈ replaceCharacters rnd (arrayShift (removeCharacters ms g)),
      row.length = CHAR_PER_ROW) ∧
    (∀ row ∈ replaceCharacters rnd (arrayShift (removeCharacters ms g)),
      ∀ ch ∈ row, ch ≠ REMOVED_CHAR_SYMBOL) := by
  have h1len : (removeCharacters ms g).length = NUM_ROWS := by
    rw [removeCharacters_length, hlen]
  have h1rows : ∀ r ∈ removeCharacters ms g, r.length = CHAR_PER_ROW :=
    removeCharacters_rows_length ms g hlen (fun p hp => (hms p hp).1) hrows
  have h2len : (arrayShift (removeCharacters ms g)).length = NUM_ROWS := by
    rw [arrayShift, shiftPass_iter_length, h1len]
  have h2rows : ∀ r ∈ arrayShift (removeCharacters ms g), r.length = CHAR_PER_ROW :=
    shiftPass_iter_rows_length NUM_ROWS _ h1rows
  exact ⟨replaceCharacters_length rnd h2len,
    replaceCharacters_rows_length rnd h2len h2rows,
    replaceCharacters_no_sentinel rnd h2len⟩

/-- Witness for C4 on a concrete grid and match set. -/
theorem c4_remove_collapse_refill_witness :
    (replaceCharacters rnd0 (arrayShift
        (removeCharacters [(0, 0), (0, 5)] gridA))).length = NUM_ROWS ∧
    (∀ row ∈ replaceCharacters rnd0 (arrayShift
        (removeCharacters [(0, 0), (0, 5)] gridA)), row.length = CHAR_PER_ROW) ∧
    (∀ row ∈ replaceCharacters rnd0 (arrayShift
        (removeCharacters [(0, 0), (0, 5)] gridA)),
      ∀ ch ∈ row, ch ≠ REMOVED_CHAR_SYMBOL) :=
  c4_remove_collapse_refill rnd0 [(0, 0), (0, 5)] gridA (by decide) (by decide)
    (by decide)

/-! ### Match engine (`getMatches`) -/

theorem execScan_succ_none {find : FindFun} {s : List Char} {pos fuel : Nat}
    (h : find s pos = none) : execScan find s (fuel + 1) pos = some [] := by
  simp [execScan, h]

theorem execScan_succ_some {find : FindFun} {s : List Char}
    {pos fuel idx len : Nat} (h : find s pos = some (idx, len)) :
    execScan find s (fuel + 1) pos =
      (execScan find s fuel (idx + len)).map
        (fun rest => (List.range len).map (fun m => idx + m) ++ rest) := by
  simp [execScan, h]

theorem execScan_mem_lt {find : FindFun} (hv : ValidFind find) (s : List Char) :
    ∀ (fuel pos c : Nat), c ∈ (execScan find s fuel pos).getD [] → c < s.length
  | 0, _, c, h => absurd h (List.not_mem_nil c)
  | fuel + 1, pos, c, h => by
    cases hfind : find s pos with
    | none =>
      rw [execScan_succ_none hfind] at h
      simp at h
    | some p =>
      obtain ⟨idx, len⟩ := p
      obtain ⟨h1, h2, h3⟩ := hv s pos idx len hfind
      rw [execScan_succ_some hfind] at h
      cases hinner : execScan find s fuel (idx + len) with
      | none =>
        rw [hinner] at h
        simp at h
      | some rest =>
        rw [hinner] at h
        simp only [Option.map_some', Option.getD_some, List.mem_append,
          List.mem_map, List.mem_range] at h
        rcases h with ⟨m, hm, hEq⟩ | hmem
        · omega
        · exact execScan_mem_lt hv s fuel (idx + len) c
            (by rw [hinner, Option.getD_some]; exact hmem)

theorem getMatchesAux_spec {find : FindFun} (hv : ValidFind find) :
    ∀ (g : List (List Char)) (r0 : Nat) (p : Nat × Nat),
      p ∈ getMatchesAux find r0 g →
      r0 ≤ p.1 ∧ p.1 - r0 < g.length ∧ p.2 < (g.getD (p.1 - r0) []).length
  | [], _, p, h => absurd h (List.not_mem_nil p)
  | row :: rest, r0, p, h => by
    simp only [getMatchesAux] at h
    rcases List.mem_append.mp h with hleft | hright
    · obtain ⟨c, hc, hEq⟩ := List.mem_map.mp hleft
      have hfst : p.1 = r0 := by rw [← hEq]
      have hsnd : p.2 = c := by rw [← hEq]
      refine ⟨le_of_eq hfst.symm, ?_, ?_⟩
      · rw [hfst]
        simp
      · rw [hfst, hsnd, Nat.sub_self, List.getD_cons_zero]
        exact execScan_mem_lt hv row (row.length + 1) 0 c hc
    · have ih := getMatchesAux_spec hv rest (r0 + 1) p hright
      have ih1 := ih.1
      have ih2 := ih.2.1
      refine ⟨by omega, ?_, ?_⟩
      · simp only [List.length_cons]
        omega
      · have hidx : p.1 - r0 = (p.1 - (r0 + 1)) + 1 := by omega
        rw [hidx, List.getD_cons_succ]
        exact ih.2.2

/-- **C3.** `getMatches` evaluates the pattern on each row independently with
a global non-overlapping left-to-right scan, emitting one `(row, col)` pair
per character position spanned, rows in index order; all returned coordinates
are in bounds, and for the single-literal pattern `"A"` on the row `"AABAA"`
it returns exactly columns 0, 1, 3, 4 of that row. -/
theorem c3_getMatches_scan :
    (∀ find : FindFun, ValidFind find → ∀ (g : List (List Char)) (p : Nat × Nat),
        p ∈ getMatches find g →
        p.1 < g.length ∧ p.2 < (g.getD p.1 []).length) ∧
    getMatches (charFind 'A') [['A', 'A', 'B', 'A', 'A']] =
      [(0, 0), (0, 1), (0, 3), (0, 4)] := by
  constructor
  · intro find hv g p hp
    have h := getMatchesAux_spec hv g 0 p hp
    exact ⟨by simpa using h.2.1, by simpa using h.2.2⟩
  · decide

theorem charFindIdx_spec (ch : Char) :
    ∀ (s : List Char) (pos j : Nat), charFindIdx ch s pos = some j →
      pos ≤ j ∧ j + 1 ≤ s.length
  | [], pos, j, h => by simp [charFindIdx] at h
  | a :: rest, 0, j, h => by
    simp only [charFindIdx] at h
    by_cases ha : a = ch
    · rw [if_pos ha] at h
      have hj : j = 0 := by
        have := Option.some.inj h
        omega
      rw [hj]
      exact ⟨Nat.le_refl 0, by simp⟩
    · rw [if_neg ha] at h
      obtain ⟨j', hj', hEq⟩ := Option.map_eq_some'.mp h
      have hspec := charFindIdx_spec ch rest 0 j' hj'
      refine ⟨Nat.zero_le _, ?_⟩
      simp only [List.length_cons]
      omega
  | _ :: rest, pos + 1, j, h => by
    simp only [charFindIdx] at h
    obtain ⟨j', hj', hEq⟩ := Option.map_eq_some'.mp h
    have hspec := charFindIdx_spec ch rest pos j' hj'
    refine ⟨by omega, ?_⟩
    simp only [List.length_cons]
    omega

theorem charFind_valid (ch : Char) : ValidFind (charFind ch) := by
  intro s pos idx len h
  simp only [charFind] at h
  obtain ⟨j, hj, hEq⟩ := Option.map_eq_some'.mp h
  obtain ⟨hspec1, hspec2⟩ := charFindIdx_spec ch s pos j hj
  cases hEq
  exact ⟨hspec1, hspec2, Nat.le_refl 1⟩

/-- Witness for C3: the coordinate `(0, 3)` returned for pattern `"A"` on the
one-row grid holding "AABAA" is in bounds. -/
theorem c3_getMatches_scan_witness :
    ((0, 3) : Nat × Nat).1 < ([['A', 'A', 'B', 'A', 'A']] : List (List Char)).length ∧
    ((0, 3) : Nat × Nat).2 <
      (([['A', 'A', 'B', 'A', 'A']] : List (List Char)).getD
        ((0, 3) : Nat × Nat).1 []).length :=
  c3_getMatches_scan.1 (charFind 'A') (charFind_valid 'A')
    [['A', 'A', 'B', 'A', 'A']] (0, 3) (by decide)

theorem execScan_isSome {find : FindFun} (hv : ValidFind find) (s : List Char) :
    ∀ (fuel pos : Nat), 1 ≤ fuel → s.length + 1 ≤ fuel + pos →
      (execScan find s fuel pos).isSome = true
  | 0, _, hfuel, _ => absurd hfuel (by omega)
  | fuel + 1, pos, _, hbound => by
    cases hfind : find s pos with
    | none =>
      rw [execScan_succ_none hfind]
      rfl
    | some p =>
      obtain ⟨idx, len⟩ := p
      obtain ⟨h1, h2, h3⟩ := hv s pos idx len hfind
      rw [execScan_succ_some hfind]
      have hrec := execScan_isSome hv s fuel (idx + len) (by omega) (by omega)
      cases hinner : execScan find s fuel (idx + len) with
      | none =>
        rw [hinner] at hrec
        exact absurd hrec (by simp)
      | some rest => rfl

theorem execScan_zero_matcher :
    ∀ (s : List Char) (fuel pos : Nat),
      execScan (fun _ p => some (p, 0)) s fuel pos = none
  | _, 0, _ => rfl
  | s, fuel + 1, pos => by
    show (execScan (fun _ p => some (p, 0)) s fuel (pos + 0)).map _ = none
    rw [Nat.add_zero, execScan_zero_matcher s fuel pos]
    rfl

/-- **C10.** If every match the matcher produces has positive length (is never
empty), the per-row scan of `getMatches` terminates — `s.length + 1` fuel
always suffices, since the position strictly increases past each match — and
this precondition is necessary: for a matcher producing empty matches at the
current position (as `RegExp.exec` does for a pattern matching the empty
string, since `lastIndex` does not advance), the loop as written never
terminates (it exhausts any amount of fuel). -/
theorem c10_scan_termination :
    (∀ find : FindFun, ValidFind find → ∀ (s : List Char) (pos fuel : Nat),
        1 ≤ fuel → s.length + 1 ≤ fuel + pos →
        (execScan find s fuel pos).isSome = true) ∧
    (∀ (s : List Char) (fuel pos : Nat),
        execScan (fun _ p => some (p, 0)) s fuel pos = none) := by
  constructor
  · intro find hv s pos fuel h1 h2
    exact execScan_isSome hv s fuel pos h1 h2
  · exact execScan_zero_matcher

/-- Witness for C10: the scan for pattern `"A"` on a two-character row
completes within `length + 1` steps of fuel. -/
theorem c10_scan_termination_witness :
    (execScan (charFind 'A') ['A', 'B'] 3 0).isSome = true :=
  c10_scan_termination.1 (charFind 'A') (charFind_valid 'A') ['A', 'B'] 0 3
    (by decide) (by decide)

/-! ### Removal, error handling and generation (C1, C6, C7, C8, C9) -/

/-- **C1** (evaluation of the code at the failing input): `removeCharacters`
does not replace the cell named by a match location — `String.replace`
replaces the FIRST occurrence of the matched character's value in the row.
On the one-row grid `"BB"` the end-anchored pattern `/B$/` produces the single
match location `(0, 1)`, yet removal blanks column 0 and leaves the matched
cell `(0, 1)` unchanged. -/
theorem c1_removeCharacters_first_occurrence :
    getMatches bDollarFind [['B', 'B']] = [(0, 1)] ∧
    removeCharacters [(0, 1)] [['B', 'B']] = [[REMOVED_CHAR_SYMBOL, 'B']] := by
  constructor
  · decide
  · decide

theorem getD_map_range {α : Type} (d : α) (f : Nat → α) {n i : Nat} (h : i < n) :
    ((List.range n).map f).getD i d = f i := by
  rw [List.getD_eq_getElem?_getD, List.getElem?_map, List.getElem?_range h]
  rfl

theorem getD_of_length_le {α : Type} (d : α) {l : List α} {n : Nat}
    (h : l.length ≤ n) : l.getD n d = d := by
  rw [List.getD_eq_getElem?_getD, List.getElem?_eq_none h]
  rfl

/-- **C6** counterexample: after a pattern-compile error the cycle does NOT
return to an IDLE state ready for a new cycle — the run control stays
disabled, because the exception thrown by `new RegExp` propagates out of
`execute` uncaught and `reset` is never reached. -/
theorem c6_counterexample :
    ¬ (runButtonClick (Except.error "invalid pattern") rnd0 rnd0 rnd0
        gState0).1.runDisabled = false := by
  decide

/-- **C6** (amended): when the supplied pattern expression fails to compile,
the error is surfaced to the caller (it propagates), no match attempt is made
and the grid is left completely unchanged; however the run control remains
disabled, so the game does not return to IDLE. -/
theorem c6_invalid_pattern (e : String) (r1 r2 r3 : RndGrid) (st : GameState) :
    runButtonClick (Except.error e) r1 r2 r3 st =
      ({ st with runDisabled := true }, some e) := rfl

/-- **C7** counterexample: the alphabet fixed at startup is NOT the 26
uppercase letters A through Z — it has only 25 characters and does not
contain `'Z'`, because the construction loop's upper bound `maxChar = 90` is
exclusive (`for (var c = min; c < max; c++)`). -/
theorem c7_counterexample :
    POSSIBLE_ASCII_CHARACTERS.length = 25 ∧
    'Z' ∉ POSSIBLE_ASCII_CHARACTERS := by
  decide

/-- **C7** (amended): the alphabet fixed at startup from `minChar = 65` and
the exclusive bound `maxChar = 90` is exactly the 25 uppercase letters A
through Y, and every character produced by the generator (`generateCharacter`,
hence also row generation via `createCharacterString`) is drawn from it. -/
theorem c7_alphabet :
    POSSIBLE_ASCII_CHARACTERS =
      ['A', 'B', 'C', 'D', 'E', 'F', 'G', 'H', 'I', 'J', 'K', 'L', 'M',
       'N', 'O', 'P', 'Q', 'R', 'S', 'T', 'U', 'V', 'W', 'X', 'Y'] ∧
    (∀ k, generateCharacter k ∈ POSSIBLE_ASCII_CHARACTERS) ∧
    (∀ (rnd : RndRow) (len : Nat) (ch : Char),
        ch ∈ createCharacterString rnd len → ch ∈ POSSIBLE_ASCII_CHARACTERS) := by
  refine ⟨by decide, generateCharacter_mem, ?_⟩
  intro rnd len ch hch
  simp only [createCharacterString, List.mem_map] at hch
  obtain ⟨i, _, hEq⟩ := hch
  rw [← hEq]
  exact generateCharacter_mem _

/-- Witness for C7: a concretely generated character is in the alphabet. -/
theorem c7_alphabet_witness : 'A' ∈ POSSIBLE_ASCII_CHARACTERS :=
  c7_alphabet.2.2 rndRow0 2 'A' (by decide)

/-- **C8.** A match cycle whose match collection is empty performs no grid
mutation: the cycle returns to IDLE (run button re-enabled) with every cell
of every row unchanged. -/
theorem c8_empty_match_no_mutation (find : FindFun) (r1 r2 r3 : RndGrid)
    (st : GameState) (h : getMatches find st.rowArray = []) :
    runButtonClick (Except.ok find) r1 r2 r3 st =
      ({ st with runDisabled := false }, none) := by
  simp [runButtonClick, execute, h]

/-- Witness for C8 with a never-matching pattern on a concrete state. -/
theorem c8_empty_match_no_mutation_witness :
    runButtonClick (Except.ok noneFind) rnd0 rnd0 rnd0 gState0 =
      ({ gState0 with runDisabled := false }, none) :=
  c8_empty_match_no_mutation noneFind rnd0 rnd0 rnd0 gState0 (by rfl)

/-- **C9.** `generateCharacter` never returns the sentinel (space, ASCII 32):
it always produces a member of `POSSIBLE_ASCII_CHARACTERS`, which contains no
sentinel; consequently refill (`replaceRow`) leaves no sentinel in any row it
writes, and every cell `populate` writes (rather than keeps) is an alphabet
character, so the sentinel stays distinguishable from every alphabet
character. -/
theorem c9_sentinel_free :
    REMOVED_CHAR_SYMBOL ∉ POSSIBLE_ASCII_CHARACTERS ∧
    (∀ k, generateCharacter k ∈ POSSIBLE_ASCII_CHARACTERS ∧
      generateCharacter k ≠ REMOVED_CHAR_SYMBOL) ∧
    (∀ (rnd : RndRow) (c : Nat) (row : List Char) (ch : Char),
        ch ∈ replaceRow rnd c row → ch ≠ REMOVED_CHAR_SYMBOL) ∧
    (∀ (rnd : RndGrid) (g : List (List Char)) (i j : Nat),
        ((populate rnd g).getD i []).getD j ' ' = (g.getD i []).getD j ' ' ∨
        ((populate rnd g).getD i []).getD j ' ' ∈ POSSIBLE_ASCII_CHARACTERS) := by
  refine ⟨sentinel_not_mem_alphabet,
    fun k => ⟨generateCharacter_mem k, generateCharacter_ne_sentinel k⟩,
    replaceRow_no_sentinel, ?_⟩
  intro rnd g i j
  by_cases hi : i < max NUM_ROWS g.length
  · simp only [populate]
    rw [getD_map_range _ _ hi]
    by_cases hcond : i < NUM_ROWS ∧ g.getD i [] = []
    · rw [if_pos hcond]
      by_cases hj : j < CHAR_PER_ROW
      · right
        simp only [createCharacterString]
        rw [getD_map_range _ _ hj]
        exact generateCharacter_mem _
      · left
        have hlen : (createCharacterString (rnd i) CHAR_PER_ROW).length ≤ j := by
          simp only [createCharacterString, List.length_map, List.length_range]
          omega
        rw [getD_of_length_le ' ' hlen, hcond.2]
        rfl
    · rw [if_neg hcond]
      left
      rfl
  · left
    have h1 : (populate rnd g).length ≤ i := by
      simp only [populate, List.length_map, List.length_range]
      omega
    have h2 : g.length ≤ i := by omega
    rw [getD_of_length_le [] h1, getD_of_length_le [] h2]

/-- Witness for C9: a kept non-sentinel cell of a concretely refilled row. -/
theorem c9_sentinel_free_witness : ('B' : Char) ≠ REMOVED_CHAR_SYMBOL :=
  c9_sentinel_free.2.2.1 rndRow0 0 [' ', 'B'] 'B' (by decide)

end Pattern
